import Mathlib

/-!
Verification of the VRP genetic-algorithm core.

Shallow embedding of `src/genetic_algorithm/` (chromosome encoding, repair,
genetic operators, fitness, diversity, engine construction and elitism) and
proofs/refutations of the behavioural claims about it.

Conventions:
* Python `int` gene values are modelled as `Int`; the route separator is the
  sentinel `-1`.
* Python `float` quantities (fitness values, weights, rates) are modelled as
  `ℚ`; where a concrete float computation matters (e.g. `int(10 * 0.2)`)
  the rational value agrees with the IEEE-754 result at the inputs used.
* Calls to `random.*` are modelled by extra parameters (cut points, index
  choices, shuffled lists); theorems quantify over every outcome allowed by
  the corresponding `random` call, with hypotheses expressing its range.
-/

namespace VRP

/-- Source `Chromosome.get_points`: the genes with the `-1` separators removed
(`[g for g in self.genes if g != -1]`). -/
def getPoints (genes : List Int) : List Int :=
  genes.filter (fun g => g ≠ -1)

/-- The scan of `Chromosome.get_routes`: `cur` is `current_route`
accumulated in reverse (Python appends; the accumulator conses and is
reversed on emission). Empty segments are dropped. -/
def getRoutesGo : List Int → List Int → List (List Int)
  | [], cur => if cur.isEmpty then [] else [cur.reverse]
  | g :: gs, cur =>
    if g = -1 then
      if cur.isEmpty then getRoutesGo gs []
      else cur.reverse :: getRoutesGo gs []
    else getRoutesGo gs (g :: cur)

/-- Source `Chromosome.get_routes`: split the gene list on the `-1` separator,
dropping empty segments. -/
def getRoutes (genes : List Int) : List (List Int) :=
  getRoutesGo genes []

/-- No two `-1` separators are adjacent (second clause of
`Chromosome.is_valid`). -/
def noConsecSep : List Int → Bool
  | a :: b :: rest => !(a == -1 && b == -1) && noConsecSep (b :: rest)
  | _ => true

/-- Source `Chromosome.is_valid`: all points distinct and no two adjacent
separators. -/
def isValid (genes : List Int) : Bool :=
  decide (getPoints genes).Nodup && noConsecSep genes

/-- The deduplication pass of `Chromosome.repair`: keep every separator and
the first occurrence of each point (`seen` accumulates the points kept). -/
def dedupGo : List Int → List Int → List Int
  | [], _ => []
  | g :: gs, seen =>
    if g = -1 then -1 :: dedupGo gs seen
    else if seen.contains g then dedupGo gs seen
    else g :: dedupGo gs (g :: seen)

/-- Source `missing = list(all_points - present_points)` of `Chromosome.repair`
(listed in increasing order; the caller shuffles it, which the theorems
model by quantifying over permutations). -/
def missingOf (genes : List Int) (numPoints : Nat) : List Int :=
  ((List.range numPoints).map Int.ofNat).filter
    (fun p => !(getPoints genes).contains p)

/-- The distribution loop of `Chromosome.repair`: each (shuffled) missing
point is appended to the route selected by the corresponding random route
index. -/
def distribute : List (List Int) → List (Int × Nat) → List (List Int)
  | routes, [] => routes
  | routes, (p, c) :: rest =>
      distribute (routes.set c ((routes.getD c []) ++ [p])) rest

/-- Rebuild a flat gene list from routes, inserting a separator between
consecutive routes (the `new_genes` reconstruction of `Chromosome.repair`). -/
def joinRoutes : List (List Int) → List Int
  | [] => []
  | [r] => r
  | r :: rs => r ++ -1 :: joinRoutes rs

/-- The separator-cleanup scan of `Chromosome.repair`. `prev` is
`prev_was_sep` and `ne` records whether `cleaned` is non-empty. -/
def cleanGo : List Int → Bool → Bool → List Int
  | [], _, _ => []
  | g :: gs, prev, ne =>
    if g = -1 then
      if !prev && ne then -1 :: cleanGo gs true ne
      else cleanGo gs prev ne
    else g :: cleanGo gs false true

/-- Separator cleanup: drop leading separators and collapse runs. -/
def cleanSeps (genes : List Int) : List Int :=
  cleanGo genes false false

/-- The final `if cleaned and cleaned[-1] == -1: cleaned.pop()` of
`Chromosome.repair`. -/
def dropTrailingSep (l : List Int) : List Int :=
  if l.getLast? = some (-1) then l.dropLast else l

/-- Source `Chromosome.repair(num_points)`. `shuff` is the shuffled `missing` list
and `choices` the successive `random.randint(0, len(routes)-1)` draws.
Mirrors the source faithfully: when `missing` is non-empty the deduplicated
`new_genes` is discarded and the routes are rebuilt from the *original*
genes. -/
def repair (genes : List Int) (numPoints : Nat)
    (shuff : List Int) (choices : List Nat) : List Int :=
  let missing := missingOf genes numPoints
  let deduped := dedupGo genes []
  let newGenes :=
    if missing.isEmpty then deduped
    else
      let routes := getRoutes genes
      let routes := if routes.isEmpty then [[]] else routes
      joinRoutes (distribute routes (shuff.zip choices))
  dropTrailingSep (cleanSeps newGenes)

/-- The `Chromosome` object state relevant to the claims (`fitness_components`
is omitted: no claim mentions it). `fitness` models the Python float as `ℚ`. -/
structure Chromosome where
  genes : List Int
  numVehicles : Nat
  fitness : ℚ
  generation : Nat := 0
  parent1Id : Option Nat := none
  parent2Id : Option Nat := none
  mutationApplied : Option String := none
  id : Option Nat := none
deriving DecidableEq, Repr, Inhabited

/-- Source `Chromosome.copy`: copies every field except `id`, which is left at its
`__init__` default `None` (the source never copies `self.id`). -/
def copyChrom (c : Chromosome) : Chromosome :=
  { genes := c.genes
    numVehicles := c.numVehicles
    fitness := c.fitness
    generation := c.generation
    parent1Id := c.parent1Id
    parent2Id := c.parent2Id
    mutationApplied := c.mutationApplied
    id := none }

/-- Source `elite_size = int(self.config['population_size'] * self.config['elitism_rate'])`
from `GeneticAlgorithm.evolve_generation`. Python `int()` truncates toward
zero; for the non-negative products considered this equals the floor. -/
def eliteSize (populationSize : Nat) (elitismRate : ℚ) : Nat :=
  (⌊(populationSize : ℚ) * elitismRate⌋).toNat

/-- The `new_population` built by `GeneticAlgorithm.evolve_generation`
(lines 212-244): deep copies of the first `elite_size` chromosomes of the
(sorted) population, followed by the offspring produced by the
selection/crossover/mutation loop (abstracted as `offspring`), truncated to
`population_size`. -/
def buildNewPopulation (population : List Chromosome) (populationSize : Nat)
    (elitismRate : ℚ) (offspring : List Chromosome) : List Chromosome :=
  (((population.take (eliteSize populationSize elitismRate)).map copyChrom)
    ++ offspring).take populationSize

/-- The configuration overrides accepted by `GeneticAlgorithm.__init__`
(`config` argument); `none` means the key is absent so the default is used.
Weight maps and mutation lists are kept abstract as association lists. -/
structure ConfigIn where
  populationSize : Option Int := none
  numGenerations : Option Int := none
  crossoverRate : Option ℚ := none
  mutationRate : Option ℚ := none
  elitismRate : Option ℚ := none
  tournamentSize : Option Int := none
  fitnessWeights : Option (List (String × ℚ)) := none
  mutationTypes : Option (List String) := none
  mutationWeights : Option (List ℚ) := none
  crossoverType : Option String := none
  selectionType : Option String := none
deriving DecidableEq, Repr

/-- The merged configuration `self.config = {**default_config, **(config or {})}`. -/
structure GAConfig where
  populationSize : Int
  numGenerations : Int
  crossoverRate : ℚ
  mutationRate : ℚ
  elitismRate : ℚ
  tournamentSize : Int
  fitnessWeights : List (String × ℚ)
  mutationTypes : List String
  mutationWeights : List ℚ
  crossoverType : String
  selectionType : String
deriving DecidableEq, Repr

/-- Source `default_config` of `GeneticAlgorithm.__init__` (rates as the exact
rationals the float literals denote). -/
def defaultConfig : GAConfig :=
  { populationSize := 100
    numGenerations := 500
    crossoverRate := 4/5
    mutationRate := 3/10
    elitismRate := 1/10
    tournamentSize := 3
    fitnessWeights := [("distance", 1), ("capacity", 10), ("autonomy", 10),
                       ("priority", 5), ("balance", 2), ("num_vehicles", 3)]
    mutationTypes := ["swap", "inversion", "move"]
    mutationWeights := [2/5, 3/10, 3/10]
    crossoverType := "order"
    selectionType := "tournament" }

/-- Source `{**default_config, **(config or {})}`: each key present in the override
replaces the default wholesale (including the nested weight map and lists). -/
def mergeConfig (c : ConfigIn) : GAConfig :=
  { populationSize := c.populationSize.getD defaultConfig.populationSize
    numGenerations := c.numGenerations.getD defaultConfig.numGenerations
    crossoverRate := c.crossoverRate.getD defaultConfig.crossoverRate
    mutationRate := c.mutationRate.getD defaultConfig.mutationRate
    elitismRate := c.elitismRate.getD defaultConfig.elitismRate
    tournamentSize := c.tournamentSize.getD defaultConfig.tournamentSize
    fitnessWeights := c.fitnessWeights.getD defaultConfig.fitnessWeights
    mutationTypes := c.mutationTypes.getD defaultConfig.mutationTypes
    mutationWeights := c.mutationWeights.getD defaultConfig.mutationWeights
    crossoverType := c.crossoverType.getD defaultConfig.crossoverType
    selectionType := c.selectionType.getD defaultConfig.selectionType }

/-- Errors a constructor could signal. -/
inductive ConfigError where
  | invalid (msg : String) : ConfigError
deriving DecidableEq, Repr

/-- The engine state produced by `GeneticAlgorithm.__init__`. -/
structure GAState where
  numPoints : Nat
  numVehicles : Nat
  config : GAConfig
  population : List Chromosome
  bestChromosome : Option Chromosome
  currentGeneration : Nat
deriving DecidableEq, Repr

/-- Source `GeneticAlgorithm.__init__` (lines 22-92). The body contains no
validation and no `raise`: it merges the configuration and initialises the
evolution state, so the embedding is `.ok` on every input. `numPoints` and
`numVehicles` are `len(delivery_points)` and `len(vehicles)`. -/
def gaInit (numPoints numVehicles : Nat) (c : ConfigIn) :
    Except ConfigError GAState :=
  .ok { numPoints := numPoints
        numVehicles := numVehicles
        config := mergeConfig c
        population := []
        bestChromosome := none
        currentGeneration := 0 }

/-- Modelled from the spec (§7 Error handling, not present in the source):
eager construction-time validation that rejects population size ≤ 0,
vehicle count ≤ 0, a weight map missing one of the six required keys, or
mutation-type/weight lists of different lengths. -/
def specValidateInit (numVehicles : Nat) (cfg : GAConfig) :
    Except ConfigError Unit :=
  if cfg.populationSize ≤ 0 then
    .error (.invalid "population size must be positive")
  else if numVehicles = 0 then
    .error (.invalid "vehicle count must be positive")
  else if ¬ (["distance", "capacity", "autonomy", "priority", "balance",
              "num_vehicles"].all
        (fun k => (cfg.fitnessWeights.map Prod.fst).contains k)) then
    .error (.invalid "fitness weight map is missing a required key")
  else if cfg.mutationTypes.length ≠ cfg.mutationWeights.length then
    .error (.invalid "mutation types and weights differ in length")
  else
    .ok ()

/-- Python `min(..., key=lambda x: x.fitness)` over a non-empty sequence:
fold keeping the current element on ties (strict `<` update). -/
def minByFitness : Chromosome → List Chromosome → Chromosome
  | best, [] => best
  | best, c :: cs => minByFitness (if c.fitness < best.fitness then c else best) cs

/-- Source `min(tournament, key=...)` applied to the whole sampled list. -/
def pyMinFitness (l : List Chromosome) : Chromosome :=
  minByFitness (l.headD default) l.tail

/-- Source `GeneticOperators.tournament_selection`: `sample` stands for the
`random.sample(population, min(tournament_size, len(population)))` draw;
the function returns its fitness-minimum. -/
def tournamentSelection (sample : List Chromosome) : Chromosome :=
  pyMinFitness sample

/-- Positional mismatch count between two point sequences
(`for pi, pj in zip(...): if pi != pj: distance += 1`). -/
def hammingZip : List Int → List Int → Nat
  | a :: as, b :: bs => (if a ≠ b then 1 else 0) + hammingZip as bs
  | _, _ => 0

/-- The nested `for i / for j in range(i+1, ...)` loop of
`GeneticLogger.calculate_diversity` (the `points_i`/`points_j` set values
computed there are never used and are omitted). -/
def pairDistances : List Chromosome → List Nat
  | [] => []
  | c :: cs =>
      (cs.map (fun c2 => hammingZip (getPoints c.genes) (getPoints c2.genes)))
        ++ pairDistances cs

/-- Source `GeneticLogger.calculate_diversity`. -/
def calculateDiversity (population : List Chromosome) : ℚ :=
  if population.length < 2 then 0
  else
    let ds := pairDistances population
    if ds.isEmpty then 0
    else
      let maxPossible := (getPoints (population.headD default).genes).length
      let avg : ℚ := (ds.sum : ℚ) / (ds.length : ℚ)
      let diversity := if 0 < maxPossible then avg / (maxPossible : ℚ) else 0
      min diversity 1

/-- Source `point_indices = [i for i, g in enumerate(genes) if g != -1]`, with `i`
starting at `base`. -/
def pointIndicesFrom : List Int → Nat → List Nat
  | [], _ => []
  | g :: gs, i =>
    if g = -1 then pointIndicesFrom gs (i + 1)
    else i :: pointIndicesFrom gs (i + 1)

/-- Gene positions holding points (not separators). -/
def pointIndices (genes : List Int) : List Nat :=
  pointIndicesFrom genes 0

/-- The simultaneous exchange
`genes[g1], genes[g2] = genes[g2], genes[g1]` at two gene positions. -/
def swapCore (genes : List Int) (g1 g2 : Nat) : List Int :=
  (genes.set g1 (genes.getD g2 0)).set g2 (genes.getD g1 0)

/-- Source `GeneticOperators.swap_mutation` on the gene list; `idx1, idx2` are the
two distinct point-view indices drawn by `random.sample(range(len(points)), 2)`. -/
def swapMutation (genes : List Int) (idx1 idx2 : Nat) : List Int :=
  if (getPoints genes).length < 2 then genes
  else swapCore genes ((pointIndices genes).getD idx1 0)
    ((pointIndices genes).getD idx2 0)

/-- The segment-extraction scan of `GeneticOperators.inversion_mutation`:
returns the points of the window and, for each separator met, the number of
points seen before it (`separators_pos.append(len(segment))`); `cnt` is the
running point count. -/
def scanSeg : List Int → Nat → (List Int × List Nat)
  | [], _ => ([], [])
  | g :: gs, cnt =>
    if g = -1 then
      let sp := scanSeg gs cnt
      (sp.1, cnt :: sp.2)
    else
      let sp := scanSeg gs (cnt + 1)
      (g :: sp.1, sp.2)

/-- The reconstruction loop of `inversion_mutation`: for each output
position, emit `-1` when the position occurs in `separators_pos`, else the
next point of the (already reversed) segment. -/
def rebuildGo : Nat → Nat → List Int → List Nat → List Int
  | _, 0, _, _ => []
  | pos, n + 1, seg, seps =>
    if seps.contains pos then -1 :: rebuildGo (pos + 1) n seg seps
    else seg.headD 0 :: rebuildGo (pos + 1) n seg.tail seps

/-- The `new_segment` reconstruction of `inversion_mutation`: scan the
window, reverse the extracted points, and rebuild with the recorded
separator offsets (`range(len(segment) + len(separators_pos))`). -/
def invWindow (window : List Int) : List Int :=
  rebuildGo 0 ((scanSeg window 0).1.length + (scanSeg window 0).2.length)
    (scanSeg window 0).1.reverse (scanSeg window 0).2

/-- The slice update of `inversion_mutation` at gene positions `g1 ≤ g2`:
`genes[g1:g2+1] = new_segment[:g2-g1+1]`. -/
def invCore (genes : List Int) (g1 g2 : Nat) : List Int :=
  genes.take g1
    ++ (invWindow ((genes.drop g1).take (g2 - g1 + 1))).take (g2 - g1 + 1)
    ++ genes.drop (g2 + 1)

/-- Source `GeneticOperators.inversion_mutation`; `idx1, idx2` are the
`random.randint(0, len(points)-2)` and `random.randint(idx1+1, len(points))`
draws. -/
def inversionMutation (genes : List Int) (idx1 idx2 : Nat) : List Int :=
  if (getPoints genes).length < 2 then genes
  else invCore genes ((pointIndices genes).getD idx1 0)
    ((pointIndices genes).getD (idx2 - 1) 0)

/-- The slicing loop of `GeneticOperators._add_separators_from_parent`:
`counts` are the successive `max(1, int(len(points) * prop))` values for all
route proportions but the last (abstracting the float arithmetic; theorems
quantify over every possible count list). -/
def addSepGo : List Int → List Nat → List Int
  | pts, [] => pts
  | pts, c :: cs => pts.take c ++ -1 :: addSepGo (pts.drop c) cs

/-- Source `GeneticOperators._add_separators_from_parent`. -/
def addSeparatorsFromParent (points : List Int) (parentGenes : List Int)
    (counts : List Nat) : List Int :=
  if getRoutes parentGenes = [] then points else addSepGo points counts

/-- The point-only child sequence of `GeneticOperators.order_crossover_vrp`
(`child1` when called as `oxChildPoints points1 points2 c1 c2`; `child2` is
the same with the parents swapped). -/
def oxChildPoints (points1 points2 : List Int) (c1 c2 : Nat) : List Int :=
  let mid := (points1.drop c1).take (c2 - c1)
  let rest := points2.filter (fun p => !mid.contains p)
  rest.take c1 ++ mid ++ rest.drop c1

/-- A full OX child: point sequence, separators from the structure parent,
then `repair(len(points))`. -/
def orderCrossoverChild (parent1 parent2 : List Int) (c1 c2 : Nat)
    (counts : List Nat) (shuff : List Int) (choices : List Nat) : List Int :=
  repair
    (addSeparatorsFromParent
      (oxChildPoints (getPoints parent1) (getPoints parent2) c1 c2)
      parent1 counts)
    (getPoints parent1).length shuff choices

/-- Source `mapping2to1` of `partially_mapped_crossover_vrp`: associates
`points2[i] ↦ points1[i]` for `i ∈ [c1, c2)` (`mapping1to2` is the same
with the parents swapped). -/
def pmxMapping (points1 points2 : List Int) (c1 c2 : Nat) : List (Int × Int) :=
  ((points2.drop c1).take (c2 - c1)).zip ((points1.drop c1).take (c2 - c1))

/-- The `while val in mapping: val = mapping[val]` chain, with fuel bounding
the iteration count (the Python loop has no bound; every run that
terminates is reproduced by a large enough fuel, and in the runs analysed
below the loop body never executes). -/
def chase (m : List (Int × Int)) : Nat → Int → Int
  | 0, v => v
  | fuel + 1, v =>
    match m.find? (fun e => decide (e.1 = v)) with
    | some e => chase m fuel e.2
    | none => v

/-- The point-only child sequence of `partially_mapped_crossover_vrp`
(`child1` when called as `pmxChildPoints points1 points2 c1 c2`): positions
inside `[c1, c2)` take `points1`, positions outside take `points2` chased
through `mapping2to1`. -/
def pmxChildPoints (points1 points2 : List Int) (c1 c2 : Nat) : List Int :=
  (List.range points1.length).map (fun i =>
    if c1 ≤ i ∧ i < c2 then points1.getD i 0
    else chase (pmxMapping points1 points2 c1 c2) (points1.length + 1)
      (points2.getD i 0))

/-- A full PMX child: point sequence, separators from the structure parent,
then `repair(len(points))`. -/
def pmxCrossoverChild (parent1 parent2 : List Int) (c1 c2 : Nat)
    (counts : List Nat) (shuff : List Int) (choices : List Nat) : List Int :=
  repair
    (addSeparatorsFromParent
      (pmxChildPoints (getPoints parent1) (getPoints parent2) c1 c2)
      parent1 counts)
    (getPoints parent1).length shuff choices

/-- Source `Priority` enum of `models/delivery_point.py`. -/
inductive Priority where
  | critico | alto | medio | baixo
deriving DecidableEq, Repr

/-- The `DeliveryPoint` fields read by `FitnessCalculator`. -/
structure PointData where
  weightKg : ℚ
  volumeM3 : ℚ
  priority : Priority
deriving DecidableEq, Repr

/-- The `Vehicle` fields read by `FitnessCalculator`. -/
structure VehicleData where
  capacityKg : ℚ
  capacityVolumeM3 : ℚ
  autonomyKm : ℚ
deriving DecidableEq, Repr

/-- The six-entry fitness weight map with its default values. -/
structure FitnessWeights where
  distance : ℚ
  capacity : ℚ
  autonomy : ℚ
  priority : ℚ
  balance : ℚ
  numVehicles : ℚ
deriving DecidableEq, Repr

/-- Default weights of `FitnessCalculator.__init__`. -/
def defaultFitnessWeights : FitnessWeights :=
  ⟨1, 10, 10, 5, 2, 3⟩

/-- A key of `FitnessCalculator._distance_cache`: either
`('depot', i)` or a raw index pair `(i, j)`. -/
inductive DKey where
  | depot (i : Int)
  | pair (i j : Int)
deriving DecidableEq, Repr

/-- Key normalisation of `FitnessCalculator.get_distance`. -/
def normKey (fromIdx toIdx : Int) : DKey :=
  if fromIdx = -1 then .depot toIdx
  else if toIdx = -1 then .depot fromIdx
  else if fromIdx < toIdx then .pair fromIdx toIdx
  else .pair toIdx fromIdx

/-- Source `FitnessCalculator.get_distance`: cache lookup with default `0`
(`self._distance_cache.get(key, 0)`). -/
def getDistance (cache : List (DKey × ℚ)) (fromIdx toIdx : Int) : ℚ :=
  ((cache.find? (fun e => decide (e.1 = normKey fromIdx toIdx))).map
    Prod.snd).getD 0

/-- Source `FitnessCalculator._precompute_distances` for `n` delivery points;
`dDepot i` and `dPair i j` stand for the haversine distances computed from
the coordinates (kept abstract: the claims do not depend on their values). -/
def precomputeDistances (n : Nat) (dDepot : Nat → ℚ) (dPair : Nat → Nat → ℚ) :
    List (DKey × ℚ) :=
  ((List.range n).map (fun i => (DKey.depot (Int.ofNat i), dDepot i)))
    ++ ((List.range n).flatMap (fun i =>
        ((List.range n).filter (fun j => i < j)).flatMap (fun j =>
          [(DKey.pair (Int.ofNat i) (Int.ofNat j), dPair i j),
           (DKey.pair (Int.ofNat j) (Int.ofNat i), dPair i j)])))

/-- Source `self.delivery_points[p]` (claims only evaluate it at in-range indices;
out-of-range access would raise in Python). -/
def pointAt (pts : List PointData) (p : Int) : PointData :=
  pts.getD p.toNat ⟨0, 0, .baixo⟩

/-- Source `self.vehicles[route_idx % len(self.vehicles)]`. -/
def vehicleAt (vehicles : List VehicleData) (routeIdx : Nat) : VehicleData :=
  vehicles.getD (routeIdx % vehicles.length) ⟨0, 0, 0⟩

/-- Sum of consecutive pairwise distances inside a route. -/
def consecSum (dist : Int → Int → ℚ) : List Int → ℚ
  | a :: b :: rest => dist a b + consecSum dist (b :: rest)
  | _ => 0

/-- depot → first + consecutive pairs + last → depot. -/
def routeDistance (dist : Int → Int → ℚ) (route : List Int) : ℚ :=
  dist (-1) (route.headD 0) + consecSum dist route
    + dist (route.getLastD 0) (-1)

/-- Source `total_distance` accumulator of `calculate_fitness`. -/
def totalDistance (dist : Int → Int → ℚ) (genes : List Int) : ℚ :=
  ((getRoutes genes).map (routeDistance dist)).sum

/-- Source `autonomy_penalty` accumulator. -/
def autonomyPenalty (vehicles : List VehicleData) (dist : Int → Int → ℚ)
    (genes : List Int) : ℚ :=
  ((getRoutes genes).enum.map (fun ir =>
    let rd := routeDistance dist ir.2
    let v := vehicleAt vehicles ir.1
    if v.autonomyKm < rd then (rd - v.autonomyKm) ^ 2 else 0)).sum

/-- Source `total_weight` of one route. -/
def routeWeight (pts : List PointData) (route : List Int) : ℚ :=
  (route.map (fun p => (pointAt pts p).weightKg)).sum

/-- Source `total_volume` of one route. -/
def routeVolume (pts : List PointData) (route : List Int) : ℚ :=
  (route.map (fun p => (pointAt pts p).volumeM3)).sum

/-- Per-route weight-capacity overage (`total_weight - vehicle.capacity_kg`
when positive, else `0`). -/
def weightOverages (pts : List PointData) (vehicles : List VehicleData)
    (genes : List Int) : List ℚ :=
  (getRoutes genes).enum.map (fun ir =>
    let cap := (vehicleAt vehicles ir.1).capacityKg
    let w := routeWeight pts ir.2
    if cap < w then w - cap else 0)

/-- Per-route volume contribution to `capacity_penalty`
(`(total_volume - capacity_volume)² * 10` when over, else `0`). -/
def volumePenaltyTerms (pts : List PointData) (vehicles : List VehicleData)
    (genes : List Int) : List ℚ :=
  (getRoutes genes).enum.map (fun ir =>
    let cap := (vehicleAt vehicles ir.1).capacityVolumeM3
    let v := routeVolume pts ir.2
    if cap < v then (v - cap) ^ 2 * 10 else 0)

/-- Source `capacity_penalty` accumulator: the per-route weight term
`(overage)²` plus the per-route volume term (equal to the single-loop
accumulation of the source, summed per component). -/
def capacityPenalty (pts : List PointData) (vehicles : List VehicleData)
    (genes : List Int) : ℚ :=
  ((weightOverages pts vehicles genes).map (fun o => o ^ 2)).sum
    + (volumePenaltyTerms pts vehicles genes).sum

/-- Source `priority_penalty` contribution of one route. -/
def priorityRoutePenalty (pts : List PointData) (route : List Int) : ℚ :=
  (route.enum.map (fun pp =>
    match (pointAt pts pp.2).priority with
    | .critico =>
        if route.length / 3 < pp.1 then 100 * ((pp.1 : ℚ) / (route.length : ℚ))
        else 0
    | .alto =>
        if 2 * route.length / 3 < pp.1 then 50 * ((pp.1 : ℚ) / (route.length : ℚ))
        else 0
    | _ => 0)).sum

/-- Source `priority_penalty` accumulator. -/
def priorityPenalty (pts : List PointData) (genes : List Int) : ℚ :=
  ((getRoutes genes).map (priorityRoutePenalty pts)).sum

/-- Source `route_loads` (per-route total weight). -/
def routeLoads (pts : List PointData) (genes : List Int) : List ℚ :=
  (getRoutes genes).map (routeWeight pts)

/-- Source `balance_penalty`: population variance of the route loads. -/
def balancePenalty (pts : List PointData) (genes : List Int) : ℚ :=
  let loads := routeLoads pts genes
  if loads.isEmpty then 0
  else ((loads.map (fun l => (l - loads.sum / (loads.length : ℚ)) ^ 2)).sum)
    / (loads.length : ℚ)

/-- Source `num_active_vehicles` (non-empty routes; `getRoutes` already drops the
empty segments). -/
def numActiveVehicles (genes : List Int) : Nat :=
  (getRoutes genes).length

/-- Source `FitnessCalculator.calculate_fitness`: the weighted combination of the
six components, with distances looked up through the cache. -/
def calculateFitness (pts : List PointData) (vehicles : List VehicleData)
    (cache : List (DKey × ℚ)) (w : FitnessWeights) (genes : List Int) : ℚ :=
  let dist := getDistance cache
  w.distance * totalDistance dist genes
    + w.capacity * capacityPenalty pts vehicles genes
    + w.autonomy * autonomyPenalty vehicles dist genes
    + w.priority * priorityPenalty pts genes
    + w.balance * balancePenalty pts genes
    + w.numVehicles * (numActiveVehicles genes : ℚ)

/-- Concrete chromosome builder for the example populations below. -/
def wChrom (genes : List Int) (fit : ℚ) (i : Option Nat) : Chromosome :=
  { genes := genes, numVehicles := 2, fitness := fit, id := i }

/-- A sorted 10-chromosome population with ids 1..10
(`population_size = 10` scenario). -/
def elitePop : List Chromosome :=
  [wChrom [0, 1] 1 (some 1), wChrom [1, 0] 2 (some 2),
   wChrom [0, -1, 1] 3 (some 3), wChrom [1, -1, 0] 4 (some 4),
   wChrom [0, 1] 5 (some 5), wChrom [1, 0] 6 (some 6),
   wChrom [0, -1, 1] 7 (some 7), wChrom [1, -1, 0] 8 (some 8),
   wChrom [0, 1] 9 (some 9), wChrom [1, 0] 10 (some 10)]

/-- A configuration violating every condition the spec says is rejected:
population size `0`, weight map missing five of the six keys, mutation
lists of different lengths (and it is passed with vehicle count `0`). -/
def badConfig : ConfigIn :=
  { populationSize := some 0
    fitnessWeights := some [("distance", 1)]
    mutationTypes := some ["swap", "inversion"]
    mutationWeights := some [1] }

/-- Source `noConsecSep` only looks at which genes are separators. -/
def noConsecB : List Bool → Bool
  | t :: u :: rest => !(t && u) && noConsecB (u :: rest)
  | _ => true

end VRP

namespace VRP

/- ### Generic helper lemmas about the embedded operations -/

theorem minByFitness_le (cs : List Chromosome) :
    ∀ best : Chromosome, (minByFitness best cs).fitness ≤ best.fitness ∧
      ∀ c ∈ cs, (minByFitness best cs).fitness ≤ c.fitness := by
  induction cs with
  | nil => intro best; exact ⟨le_refl _, by simp⟩
  | cons c cs ih =>
    intro best
    simp only [minByFitness]
    refine ⟨?_, ?_⟩
    · split_ifs with hcb
      · exact ((ih c).1).trans hcb.le
      · exact (ih best).1
    · intro x hx
      rcases List.mem_cons.mp hx with rfl | hx'
      · split_ifs with hcb
        · exact (ih x).1
        · exact ((ih best).1).trans (not_lt.mp hcb)
      · split_ifs with hcb
        · exact (ih c).2 x hx'
        · exact (ih best).2 x hx'

theorem minByFitness_mem (cs : List Chromosome) :
    ∀ best : Chromosome, minByFitness best cs = best ∨ minByFitness best cs ∈ cs := by
  induction cs with
  | nil => intro best; exact Or.inl rfl
  | cons c cs ih =>
    intro best
    simp only [minByFitness]
    rcases ih (if c.fitness < best.fitness then c else best) with h | h
    · rw [h]
      split_ifs
      · exact Or.inr (List.mem_cons_self ..)
      · exact Or.inl rfl
    · exact Or.inr (List.mem_cons_of_mem _ h)

theorem hammingZip_self (l : List Int) : hammingZip l l = 0 := by
  induction l with
  | nil => rfl
  | cons a l ih => simp [hammingZip, ih]

theorem pairDistances_identical (population : List Chromosome) (pts : List Int)
    (hall : ∀ c ∈ population, getPoints c.genes = pts) :
    ∀ d ∈ pairDistances population, d = 0 := by
  induction population with
  | nil => simp [pairDistances]
  | cons c cs ih =>
    intro d hd
    rcases List.mem_append.mp hd with hd | hd
    · obtain ⟨c2, hc2, rfl⟩ := List.mem_map.mp hd
      rw [hall c (List.mem_cons_self ..), hall c2 (List.mem_cons_of_mem _ hc2)]
      exact hammingZip_self pts
    · exact ih (fun x hx => hall x (List.mem_cons_of_mem _ hx)) d hd

/- ### C1 -/

/-- C1: refuted as stated — the code discards the deduplication result
whenever missing points exist. For `N = 2` and gene sequence `[0, 0]`
(duplicate `0`, missing `1`), every random outcome is forced (the shuffled
missing list is the singleton `[1]` and the only route index is `0`), and
`repair` produces `[0, 0, 1]`, which still contains the duplicate and fails
`is_valid`; the source's own comment says this pass removes duplicates and
`create_random` relies on `repair` to guarantee validity. -/
theorem repair_keeps_duplicates_when_points_missing :
    missingOf [0, 0] 2 = [1] ∧
    repair [0, 0] 2 [1] [0] = [0, 0, 1] ∧
    isValid (repair [0, 0] 2 [1] [0]) = false := by
  refine ⟨by decide, by decide, by decide⟩

/- ### C3 -/

/-- C3: refuted — `GeneticAlgorithm.__init__` contains no validation and no
raise path, so construction succeeds even when population size ≤ 0, vehicle
count ≤ 0, the weight map misses required keys and the mutation lists
mismatch; the spec-modelled validator rejects the same input. -/
theorem gaInit_accepts_invalid_config :
    gaInit 5 0 badConfig =
      .ok { numPoints := 5, numVehicles := 0, config := mergeConfig badConfig,
            population := [], bestChromosome := none, currentGeneration := 0 } ∧
    (mergeConfig badConfig).populationSize = 0 ∧
    (mergeConfig badConfig).mutationTypes.length ≠
      (mergeConfig badConfig).mutationWeights.length ∧
    specValidateInit 0 (mergeConfig badConfig) =
      .error (.invalid "population size must be positive") := by
  refine ⟨rfl, by decide, by decide, rfl⟩

/-- C3 amended: construction never raises — for every input (including all
the invalid configurations of the claim) `__init__` returns a constructed
engine holding the merged configuration unchanged. -/
theorem gaInit_never_raises (numPoints numVehicles : Nat) (c : ConfigIn) :
    gaInit numPoints numVehicles c =
      .ok { numPoints := numPoints, numVehicles := numVehicles,
            config := mergeConfig c, population := [],
            bestChromosome := none, currentGeneration := 0 } := rfl

/- ### C10 -/

/-- C10: `get_distance` is a total lookup with default `0`: whenever the
normalised key is absent from the precomputed cache — in particular for any
out-of-range index — it returns `0` instead of failing. -/
theorem getDistance_out_of_range_zero (n : Nat) (dDepot : Nat → ℚ)
    (dPair : Nat → Nat → ℚ) (i j : Int)
    (h : (n : Int) ≤ i ∨ i < -1 ∨ (n : Int) ≤ j ∨ j < -1) :
    getDistance (precomputeDistances n dDepot dPair) i j = 0 := by
  have hfind : (precomputeDistances n dDepot dPair).find?
      (fun e => decide (e.1 = normKey i j)) = none := by
    rw [List.find?_eq_none]
    intro e he
    simp only [decide_eq_true_eq]
    intro hkey
    simp only [precomputeDistances, List.mem_append, List.mem_map,
      List.mem_flatMap, List.mem_filter, List.mem_range, List.mem_cons,
      List.mem_singleton, List.not_mem_nil, or_false] at he
    rcases he with ⟨k, hk, rfl⟩ | ⟨a, ha, b, ⟨hb, hab⟩, rfl | rfl⟩ <;>
      simp only [normKey] at hkey <;> split_ifs at hkey <;>
      simp only [DKey.depot.injEq, DKey.pair.injEq, Int.ofNat_eq_natCast] at hkey <;>
      rcases h with h | h | h | h <;> omega
  simp [getDistance, hfind]

/-- C10 witness: index `5` is out of range for a 2-point cache, so its
distance to point `0` is `0`. -/
theorem getDistance_out_of_range_zero_witness :
    getDistance (precomputeDistances 2 (fun _ => 7) (fun _ _ => 9)) 5 0 = 0 :=
  getDistance_out_of_range_zero 2 (fun _ => 7) (fun _ _ => 9) 5 0
    (Or.inl (by decide))

/- ### C6 -/

/-- C6: `tournament_selection` returns a chromosome at least as fit (lower
fitness) as every sampled chromosome, is drawn from the population, and
when the tournament size equals the population size it attains the global
minimum fitness. `sample` is the `random.sample` outcome: a sub-permutation
of the population of size `min(tournament_size, len(population))`. -/
theorem tournamentSelection_never_worse
    (population sample : List Chromosome) (k : Nat)
    (hpop : population ≠ []) (hk : 1 ≤ k)
    (hsub : sample.Subperm population)
    (hlen : sample.length = min k population.length) :
    (∀ c ∈ sample, (tournamentSelection sample).fitness ≤ c.fitness) ∧
    tournamentSelection sample ∈ population ∧
    (k = population.length →
      ∀ c ∈ population, (tournamentSelection sample).fitness ≤ c.fitness) := by
  have hplen : 1 ≤ population.length := List.length_pos.mpr hpop
  have hslen : 1 ≤ sample.length := by
    rw [hlen]
    exact Nat.le_min.mpr ⟨hk, hplen⟩
  match sample, hslen with
  | s :: ss, _ =>
    have hts : tournamentSelection (s :: ss) = minByFitness s ss := by
      simp [tournamentSelection, pyMinFitness]
    have hle := minByFitness_le ss s
    have hsampled : ∀ c ∈ s :: ss,
        (tournamentSelection (s :: ss)).fitness ≤ c.fitness := by
      intro c hc
      rw [hts]
      rcases List.mem_cons.mp hc with rfl | hc'
      · exact hle.1
      · exact hle.2 c hc'
    refine ⟨hsampled, ?_, ?_⟩
    · rcases minByFitness_mem ss s with h | h
      · rw [hts, h]
        exact hsub.subset (List.mem_cons_self ..)
      · rw [hts]
        exact hsub.subset (List.mem_cons_of_mem _ h)
    · intro hkn c hcpop
      have hperm : (s :: ss).Perm population := by
        refine hsub.perm_of_length_le ?_
        rw [hlen, hkn, min_self]
      exact hsampled c (hperm.mem_iff.mpr hcpop)

/-- C6 witness: a concrete two-chromosome population sampled whole
(`k = 2`): the selected chromosome is at least as fit as the first. -/
theorem tournamentSelection_never_worse_witness :
    (tournamentSelection [wChrom [0, 1] 5 (some 1), wChrom [1, 0] 3 (some 2)]).fitness
      ≤ (wChrom [0, 1] 5 (some 1)).fitness :=
  (tournamentSelection_never_worse
    [wChrom [0, 1] 5 (some 1), wChrom [1, 0] 3 (some 2)]
    [wChrom [0, 1] 5 (some 1), wChrom [1, 0] 3 (some 2)] 2
    (by decide) (by decide) (List.Subperm.refl _) (by decide)).1
    (wChrom [0, 1] 5 (some 1)) (List.mem_cons_self ..)

/- ### C8 -/

/-- C8: `calculate_diversity` always returns a value in `[0, 1]`, and
returns exactly `0` when all chromosomes have identical point-only
sequences. -/
theorem calculateDiversity_bounds (population : List Chromosome) :
    0 ≤ calculateDiversity population ∧ calculateDiversity population ≤ 1 ∧
    ((∀ c ∈ population,
        getPoints c.genes = getPoints (population.headD default).genes) →
      calculateDiversity population = 0) := by
  simp only [calculateDiversity]
  split_ifs with h1 h2 h3
  · exact ⟨le_refl 0, by norm_num, fun _ => rfl⟩
  · exact ⟨le_refl 0, by norm_num, fun _ => rfl⟩
  · refine ⟨le_min ?_ zero_le_one, min_le_right _ _, ?_⟩
    · have hnum : (0 : ℚ) ≤ ((pairDistances population).sum : ℚ) :=
        Nat.cast_nonneg _
      positivity
    · intro hall
      have hzero : (pairDistances population).sum = 0 :=
        List.sum_eq_zero (pairDistances_identical population _ hall)
      rw [hzero]
      norm_num
  · exact ⟨le_min (le_refl 0) zero_le_one, min_le_right _ _,
      fun _ => by norm_num⟩

/-- C8 witness: a two-chromosome population with identical point sequences
has diversity exactly `0`. -/
theorem calculateDiversity_bounds_witness :
    calculateDiversity [wChrom [0, 1] 1 none, wChrom [0, 1] 2 none] = 0 :=
  (calculateDiversity_bounds
    [wChrom [0, 1] 1 none, wChrom [0, 1] 2 none]).2.2 (by decide)

/- ### C2 -/

/-- Source `int(10 * 0.2) = 2` (the float product `10 * 0.2` is exactly `2.0`
in IEEE-754 doubles, so the rational model agrees with the source). -/
theorem eliteSize_ten_fifth : eliteSize 10 (1/5) = 2 := by
  unfold eliteSize
  rw [show ((10 : ℕ) : ℚ) * (1/5) = ((2 : ℤ) : ℚ) by norm_num, Int.floor_intCast]
  rfl

/-- C2: refuted as stated — `Chromosome.copy` does not copy `self.id`, so
the two carried chromosomes enter the new population with `id = None`: they
are not identified by the ids of the two best of the previous generation,
and (as full objects) are not equal to them. -/
theorem elitism_lost_ids_cx :
    ((buildNewPopulation elitePop 10 (1/5) []).take 2).map Chromosome.id
      = [none, none] ∧
    (elitePop.take 2).map Chromosome.id = [some 1, some 2] ∧
    (buildNewPopulation elitePop 10 (1/5) []).take 2 ≠ elitePop.take 2 := by
  have hb : buildNewPopulation elitePop 10 (1/5) [] =
      ((elitePop.take 2).map copyChrom ++ []).take 10 := by
    unfold buildNewPopulation
    rw [eliteSize_ten_fifth]
  rw [hb]
  refine ⟨by decide, by decide, by decide⟩

/-- C2 amended: with `population_size = 10` and `elitism_rate = 0.2`,
`evolve_generation` carries exactly `int(10 * 0.2) = 2` chromosomes into
the new population: deep copies of the 2 best of the previous (sorted)
population, unmodified and not re-evaluated — equal to them in genes,
fitness, and every other field except `id`, which the copy resets to
`None`. -/
theorem elitism_carries_two_best_copies (pop offspring : List Chromosome)
    (h : 2 ≤ pop.length) :
    eliteSize 10 (1/5) = 2 ∧
    (buildNewPopulation pop 10 (1/5) offspring).take 2 =
      (pop.take 2).map copyChrom ∧
    ∀ c : Chromosome, (copyChrom c).genes = c.genes ∧
      (copyChrom c).fitness = c.fitness ∧
      (copyChrom c).generation = c.generation ∧ (copyChrom c).id = none := by
  refine ⟨eliteSize_ten_fifth, ?_, fun c => ⟨rfl, rfl, rfl, rfl⟩⟩
  unfold buildNewPopulation
  rw [eliteSize_ten_fifth, List.take_take]
  have hmin : min 2 10 = 2 := by norm_num
  rw [hmin]
  have hlen2 : ((pop.take 2).map copyChrom).length = 2 := by
    simp only [List.length_map, List.length_take]
    omega
  rw [List.take_append_of_le_length (by omega)]
  exact List.take_of_length_le (by omega)

/-- C2 amended witness: on the concrete sorted 10-chromosome population,
the first two entries of the new population are the copies of its two
best. -/
theorem elitism_carries_two_best_copies_witness :
    (buildNewPopulation elitePop 10 (1/5) []).take 2 =
      (elitePop.take 2).map copyChrom :=
  (elitism_carries_two_best_copies elitePop [] (by decide)).2.1

/- ### C4 -/

theorem dedupGo_eq_self (genes : List Int) :
    ∀ seen : List Int, (getPoints genes).Nodup →
      (∀ g ∈ getPoints genes, g ∉ seen) → dedupGo genes seen = genes := by
  induction genes with
  | nil => intro seen _ _; rfl
  | cons g gs ih =>
    intro seen hnd hdisj
    by_cases hg : g = -1
    · subst hg
      have hpts : getPoints ((-1 : Int) :: gs) = getPoints gs := by
        simp [getPoints]
      rw [hpts] at hnd hdisj
      have hstep : dedupGo (-1 :: gs) seen = -1 :: dedupGo gs seen := rfl
      rw [hstep, ih seen hnd hdisj]
    · have hpts : getPoints (g :: gs) = g :: getPoints gs := by
        simp [getPoints, hg]
      rw [hpts] at hnd hdisj
      have hgs : g ∉ getPoints gs := (List.nodup_cons.mp hnd).1
      have hnc : ¬ (seen.contains g = true) := fun hc =>
        hdisj g (List.mem_cons_self ..) (List.elem_iff.mp hc)
      simp only [dedupGo, if_neg hg, if_neg hnc]
      rw [ih (g :: seen) (List.nodup_cons.mp hnd).2 ?_]
      intro x hx hmem
      rcases List.mem_cons.mp hmem with rfl | hmem'
      · exact hgs hx
      · exact hdisj x (List.mem_cons_of_mem _ hx) hmem'

theorem noConsecSep_tail {a : Int} {l : List Int}
    (h : noConsecSep (a :: l) = true) : noConsecSep l = true := by
  cases l with
  | nil => rfl
  | cons b t =>
    simp only [noConsecSep, Bool.and_eq_true] at h
    exact h.2

theorem noConsecSep_after_sep {b : Int} {l : List Int}
    (h : noConsecSep (-1 :: b :: l) = true) : b ≠ -1 := by
  intro hb
  subst hb
  simp [noConsecSep] at h

theorem cleanGo_id (l : List Int) :
    noConsecSep l = true →
      cleanGo l false true = l ∧
        (l.head? ≠ some (-1) → cleanGo l true true = l) := by
  induction l with
  | nil => intro _; exact ⟨rfl, fun _ => rfl⟩
  | cons g gs ih =>
    intro h
    have htail := noConsecSep_tail h
    by_cases hg : g = -1
    · subst hg
      refine ⟨?_, ?_⟩
      · have hgs : gs.head? ≠ some (-1) := by
          cases gs with
          | nil => simp
          | cons b t =>
            have hb := noConsecSep_after_sep h
            simp [hb]
        have hstep : cleanGo (-1 :: gs) false true = -1 :: cleanGo gs true true := rfl
        rw [hstep, (ih htail).2 hgs]
      · intro hh
        exact absurd rfl hh
    · refine ⟨?_, fun _ => ?_⟩ <;>
      · simp only [cleanGo, if_neg hg]
        rw [(ih htail).1]

theorem cleanSeps_id (genes : List Int) (h : noConsecSep genes = true)
    (hh : genes.head? ≠ some (-1)) : cleanSeps genes = genes := by
  cases genes with
  | nil => rfl
  | cons g gs =>
    have hg : g ≠ -1 := by simpa using hh
    unfold cleanSeps
    simp only [cleanGo, if_neg hg]
    rw [(cleanGo_id gs (noConsecSep_tail h)).1]

theorem dropTrailingSep_id (l : List Int) (h : l.getLast? ≠ some (-1)) :
    dropTrailingSep l = l := by
  unfold dropTrailingSep
  rw [if_neg h]

theorem missingOf_eq_nil (genes : List Int) (numPoints : Nat)
    (hcover : ∀ k ∈ List.range numPoints, (k : Int) ∈ getPoints genes) :
    missingOf genes numPoints = [] := by
  unfold missingOf
  rw [List.filter_eq_nil_iff]
  intro p hp
  rw [List.mem_map] at hp
  obtain ⟨a, ha, rfl⟩ := hp
  simp only [Int.ofNat_eq_natCast]
  simp [hcover a ha]

/-- C4: refuted as stated — `is_valid` does not reject a leading (or
trailing) separator, but `repair` strips it: `[-1, 0]` is valid with point
set `{0}`, yet `repair(1)` (which draws no random values here) rewrites the
genes to `[0]`. -/
theorem repair_changes_valid_with_leading_sentinel :
    isValid [-1, 0] = true ∧ getPoints [-1, 0] = [0] ∧
    repair [-1, 0] 1 [] [] = [0] :=
  ⟨by decide, by decide, by decide⟩

/-- C4 amended: `repair` is a no-op on every valid chromosome whose point
set is exactly `{0..N-1}` and whose gene sequence neither starts nor ends
with a separator (the two shapes the counterexample shows are rewritten);
this holds for every outcome of the random draws. -/
theorem repair_noop_on_valid (genes : List Int) (numPoints : Nat)
    (shuff : List Int) (choices : List Nat)
    (hv : isValid genes = true)
    (hcover : ∀ k ∈ List.range numPoints, (k : Int) ∈ getPoints genes)
    (hrange : ∀ p ∈ getPoints genes, 0 ≤ p ∧ p < (numPoints : Int))
    (hhead : genes.head? ≠ some (-1)) (hlast : genes.getLast? ≠ some (-1)) :
    repair genes numPoints shuff choices = genes := by
  simp only [isValid, Bool.and_eq_true, decide_eq_true_eq] at hv
  simp only [repair, missingOf_eq_nil genes numPoints hcover,
    List.isEmpty_nil, if_true]
  rw [dedupGo_eq_self genes [] hv.1 (fun g _ hmem => List.not_mem_nil g hmem)]
  rw [cleanSeps_id genes hv.2 hhead]
  exact dropTrailingSep_id genes hlast

/-- C4 amended witness: the valid chromosome `[0, -1, 1]` over `{0, 1}` is
untouched by `repair(2)`. -/
theorem repair_noop_on_valid_witness :
    repair [0, -1, 1] 2 [] [] = [0, -1, 1] :=
  repair_noop_on_valid [0, -1, 1] 2 [] [] (by decide) (by decide) (by decide)
    (by decide) (by decide)

/- ### C7 -/

/-- C7: fitness is strictly monotone in weight-capacity overage: for two
chromosomes whose computed fitness components all agree except that on one
route the positive weight overage is strictly larger (`A` and `B` are the
unchanged overages of the other routes), `calculate_fitness` under the
default weights is strictly larger for the larger overage. -/
theorem calculateFitness_strict_mono_overage
    (pts : List PointData) (vehicles : List VehicleData)
    (cache : List (DKey × ℚ)) (g1 g2 : List Int)
    (A B : List ℚ) (o1 o2 : ℚ)
    (hdist : totalDistance (getDistance cache) g1
      = totalDistance (getDistance cache) g2)
    (hauto : autonomyPenalty vehicles (getDistance cache) g1
      = autonomyPenalty vehicles (getDistance cache) g2)
    (hprio : priorityPenalty pts g1 = priorityPenalty pts g2)
    (hbal : balancePenalty pts g1 = balancePenalty pts g2)
    (hnv : numActiveVehicles g1 = numActiveVehicles g2)
    (hvol : (volumePenaltyTerms pts vehicles g1).sum
      = (volumePenaltyTerms pts vehicles g2).sum)
    (hw1 : weightOverages pts vehicles g1 = A ++ o1 :: B)
    (hw2 : weightOverages pts vehicles g2 = A ++ o2 :: B)
    (ho1 : 0 < o1) (ho12 : o1 < o2) :
    calculateFitness pts vehicles cache defaultFitnessWeights g1
      < calculateFitness pts vehicles cache defaultFitnessWeights g2 := by
  have hsq : o1 ^ 2 < o2 ^ 2 := by nlinarith
  have hcap : capacityPenalty pts vehicles g1
      < capacityPenalty pts vehicles g2 := by
    unfold capacityPenalty
    rw [hw1, hw2, hvol]
    simp only [List.map_append, List.map_cons, List.sum_append, List.sum_cons]
    linarith
  simp only [calculateFitness, defaultFitnessWeights]
  rw [hdist, hauto, hprio, hbal, hnv]
  linarith

/-- C7 witness: same depot-only geometry and default weights; one point of
weight 2 versus one of weight 3 against capacity 1 (overages 1 < 2): the
larger overage yields strictly larger fitness. -/
theorem calculateFitness_strict_mono_overage_witness :
    calculateFitness [⟨2, 0, .baixo⟩, ⟨3, 0, .baixo⟩] [⟨1, 100, 1000⟩] []
        defaultFitnessWeights [0]
      < calculateFitness [⟨2, 0, .baixo⟩, ⟨3, 0, .baixo⟩] [⟨1, 100, 1000⟩] []
        defaultFitnessWeights [1] :=
  calculateFitness_strict_mono_overage
    [⟨2, 0, .baixo⟩, ⟨3, 0, .baixo⟩] [⟨1, 100, 1000⟩] [] [0] [1] [] [] 1 2
    (by simp [totalDistance, getRoutes, getRoutesGo, routeDistance, consecSum,
      getDistance, normKey])
    (by simp [autonomyPenalty, getRoutes, getRoutesGo, routeDistance,
      consecSum, getDistance, normKey, vehicleAt])
    (by simp [priorityPenalty, getRoutes, getRoutesGo, priorityRoutePenalty,
      pointAt])
    (by simp [balancePenalty, routeLoads, getRoutes, getRoutesGo, routeWeight,
      pointAt])
    (by decide)
    (by simp [volumePenaltyTerms, getRoutes, getRoutesGo, vehicleAt,
      routeVolume, pointAt])
    (by simp [weightOverages, getRoutes, getRoutesGo, vehicleAt, routeWeight,
      pointAt]
        norm_num)
    (by simp [weightOverages, getRoutes, getRoutesGo, vehicleAt, routeWeight,
      pointAt]
        norm_num)
    (by norm_num) (by norm_num)

/- ### C5 -/

/-- C5: refuted on the code — PMX consults `mapping2to1` (keyed by parent
2's segment values) when filling child 1 from parent 2, so for valid
parents the mapping chain never fires and conflicting values are copied
verbatim. With parents `[0,1,-1,2,3]` and `[2,3,-1,0,1]` and cuts
`c1 = 1, c2 = 3` (legal `randint` draws), child 1's point sequence is
`[2,1,2,1]`; `repair(4)` (missing `{0,3}` shuffled as `[0,3]`, route draws
`0` then `1`, separator count `max(1, int(4*0.5)) = 2` from the parent's
2+2 route split) returns `[2,1,0,-1,2,1,3]`, which keeps both duplicates
and fails `is_valid` — the spec promises both crossovers always yield valid
children. -/
theorem pmx_produces_invalid_child :
    isValid [0, 1, -1, 2, 3] = true ∧ isValid [2, 3, -1, 0, 1] = true ∧
    getPoints [0, 1, -1, 2, 3] = [0, 1, 2, 3] ∧
    getPoints [2, 3, -1, 0, 1] = [2, 3, 0, 1] ∧
    pmxChildPoints [0, 1, 2, 3] [2, 3, 0, 1] 1 3 = [2, 1, 2, 1] ∧
    pmxCrossoverChild [0, 1, -1, 2, 3] [2, 3, -1, 0, 1] 1 3 [2] [0, 3] [0, 1]
      = [2, 1, 0, -1, 2, 1, 3] ∧
    isValid [2, 1, 0, -1, 2, 1, 3] = false := by
  refine ⟨by decide, by decide, by decide, by decide, by decide, by decide,
    by decide⟩

/- ### C9 helper lemmas -/

theorem pointIndicesFrom_spec (genes : List Int) :
    ∀ b : Nat,
      (pointIndicesFrom genes b).length = (getPoints genes).length ∧
      (∀ x ∈ pointIndicesFrom genes b,
        b ≤ x ∧ x - b < genes.length ∧ genes.getD (x - b) 0 ≠ -1) ∧
      List.Pairwise (· < ·) (pointIndicesFrom genes b) := by
  induction genes with
  | nil =>
    intro b
    refine ⟨rfl, by simp [pointIndicesFrom], by simp [pointIndicesFrom]⟩
  | cons g gs ih =>
    intro b
    by_cases hg : g = -1
    · subst hg
      have hstep : pointIndicesFrom (-1 :: gs) b = pointIndicesFrom gs (b + 1) := rfl
      rw [hstep]
      obtain ⟨ihl, ihm, ihp⟩ := ih (b + 1)
      refine ⟨?_, ?_, ihp⟩
      · rw [ihl]
        simp [getPoints]
      · intro x hx
        obtain ⟨hb1, hb2, hb3⟩ := ihm x hx
        refine ⟨by omega, ?_, ?_⟩
        · simp only [List.length_cons]
          omega
        · have hx1 : x - b = (x - (b + 1)) + 1 := by omega
          rw [hx1, List.getD_cons_succ]
          exact hb3
    · simp only [pointIndicesFrom, if_neg hg]
      obtain ⟨ihl, ihm, ihp⟩ := ih (b + 1)
      refine ⟨?_, ?_, ?_⟩
      · simp only [List.length_cons, ihl]
        have hpts : getPoints (g :: gs) = g :: getPoints gs := by
          simp [getPoints, hg]
        rw [hpts]
        simp
      · intro x hx
        rcases List.mem_cons.mp hx with rfl | hx'
        · refine ⟨le_refl _, by simp, ?_⟩
          simpa [Nat.sub_self] using hg
        · obtain ⟨hb1, hb2, hb3⟩ := ihm x hx'
          refine ⟨by omega, by simp only [List.length_cons]; omega, ?_⟩
          have hx1 : x - b = (x - (b + 1)) + 1 := by omega
          rw [hx1, List.getD_cons_succ]
          exact hb3
      · rw [List.pairwise_cons]
        refine ⟨fun y hy => ?_, ihp⟩
        have := (ihm y hy).1
        omega

theorem pointIndices_spec (genes : List Int) :
    (pointIndices genes).length = (getPoints genes).length ∧
    (∀ x ∈ pointIndices genes,
      x < genes.length ∧ genes.getD x 0 ≠ -1) ∧
    List.Pairwise (· < ·) (pointIndices genes) := by
  obtain ⟨h1, h2, h3⟩ := pointIndicesFrom_spec genes 0
  refine ⟨h1, fun x hx => ?_, h3⟩
  obtain ⟨_, hb2, hb3⟩ := h2 x hx
  simp only [Nat.sub_zero] at hb2 hb3
  exact ⟨hb2, hb3⟩

theorem pairwise_lt_getD_lt (l : List Nat) (hp : List.Pairwise (· < ·) l)
    (i j : Nat) (hij : i < j) (hj : j < l.length) :
    l.getD i 0 < l.getD j 0 := by
  rw [List.getD_eq_getElem l 0 (by omega), List.getD_eq_getElem l 0 hj]
  exact List.pairwise_iff_getElem.mp hp i j (by omega) hj hij

theorem getD_mem_of_lt (l : List Nat) (i : Nat) (hi : i < l.length) :
    l.getD i 0 ∈ l := by
  rw [List.getD_eq_getElem l 0 hi]
  exact List.getElem_mem hi

/-- Helper: `t.getD j d :: t.set j a` is a permutation of `a :: t`. -/
theorem getD_set_cons_perm (t : List Int) :
    ∀ (j : Nat) (a d : Int), j < t.length →
      (t.getD j d :: t.set j a).Perm (a :: t) := by
  induction t with
  | nil => intro j a d h; simp at h
  | cons b s ih =>
    intro j a d h
    cases j with
    | zero =>
      simp only [List.getD_cons_zero, List.set_cons_zero]
      exact List.Perm.swap a b s
    | succ j =>
      simp only [List.getD_cons_succ, List.set_cons_succ]
      exact List.Perm.trans (List.Perm.swap b (s.getD j d) (s.set j a))
        (List.Perm.trans ((ih j a d (by simpa using h)).cons b)
          (List.Perm.swap a b s))

/-- Exchanging the entries at two in-range positions permutes the list. -/
theorem set_set_swap_perm (l : List Int) :
    ∀ (i j : Nat) (d : Int), i < l.length → j < l.length →
      ((l.set i (l.getD j d)).set j (l.getD i d)).Perm l := by
  induction l with
  | nil => intro i j d hi _; simp at hi
  | cons b t ih =>
    intro i j d hi hj
    cases i with
    | zero =>
      cases j with
      | zero => simp
      | succ j =>
        simp only [List.getD_cons_zero, List.getD_cons_succ,
          List.set_cons_zero, List.set_cons_succ]
        exact getD_set_cons_perm t j b d (by simpa using hj)
    | succ i =>
      cases j with
      | zero =>
        simp only [List.getD_cons_zero, List.getD_cons_succ,
          List.set_cons_zero, List.set_cons_succ]
        exact getD_set_cons_perm t i b d (by simpa using hi)
      | succ j =>
        simp only [List.getD_cons_succ, List.set_cons_succ]
        exact (ih i j d (by simpa using hi) (by simpa using hj)).cons b

theorem set_getD_eq_self (L : List Bool) :
    ∀ i : Nat, i < L.length → L.set i (L.getD i true) = L := by
  induction L with
  | nil => intro i hi; simp at hi
  | cons b t ih =>
    intro i hi
    cases i with
    | zero => rfl
    | succ i =>
      simp only [List.set_cons_succ, List.getD_cons_succ]
      rw [ih i (by simpa using hi)]

theorem noConsecSep_eq_noConsecB (l : List Int) :
    noConsecSep l = noConsecB (l.map (fun g => g == -1)) := by
  induction l with
  | nil => rfl
  | cons g gs ih =>
    cases gs with
    | nil => rfl
    | cons b t =>
      simp only [noConsecSep, List.map_cons, noConsecB]
      rw [← List.map_cons (fun g => g == -1) b t, ← ih]

/-- The swap core preserves the gene multiset and the separator layout. -/
theorem swapCore_spec (genes : List Int) (g1 g2 : Nat)
    (h1 : g1 < genes.length) (h2 : g2 < genes.length)
    (hs1 : genes.getD g1 0 ≠ -1) (hs2 : genes.getD g2 0 ≠ -1) :
    (swapCore genes g1 g2).Perm genes ∧
    (swapCore genes g1 g2).map (fun g => g == -1)
      = genes.map (fun g => g == -1) := by
  constructor
  · exact set_set_swap_perm genes g1 g2 0 h1 h2
  · unfold swapCore
    rw [List.map_set, List.map_set]
    have hf2 : ((genes.getD g2 0 == -1) : Bool) = false :=
      beq_eq_false_iff_ne.mpr hs2
    have hf1 : ((genes.getD g1 0 == -1) : Bool) = false :=
      beq_eq_false_iff_ne.mpr hs1
    rw [hf1, hf2]
    have hM1 : (genes.map (fun g => (g == -1 : Bool))).getD g1 true
        = false := by
      rw [List.getD_eq_getElem _ true (by simpa using h1), List.getElem_map]
      rw [List.getD_eq_getElem genes 0 h1] at hs1
      exact beq_eq_false_iff_ne.mpr hs1
    have hstep1 : (genes.map (fun g => (g == -1 : Bool))).set g1 false
        = genes.map (fun g => (g == -1 : Bool)) := by
      rw [← hM1]
      exact set_getD_eq_self _ g1 (by simpa using h1)
    rw [hstep1]
    have hM2 : (genes.map (fun g => (g == -1 : Bool))).getD g2 true
        = false := by
      rw [List.getD_eq_getElem _ true (by simpa using h2), List.getElem_map]
      rw [List.getD_eq_getElem genes 0 h2] at hs2
      exact beq_eq_false_iff_ne.mpr hs2
    rw [← hM2]
    exact set_getD_eq_self _ g2 (by simpa using h2)

theorem noConsecSep_drop (l : List Int) :
    ∀ k, noConsecSep l = true → noConsecSep (l.drop k) = true := by
  induction l with
  | nil => intro k _; simp [noConsecSep]
  | cons g gs ih =>
    intro k h
    cases k with
    | zero => exact h
    | succ k => exact ih k (noConsecSep_tail h)

theorem noConsecSep_take (l : List Int) :
    ∀ k, noConsecSep l = true → noConsecSep (l.take k) = true := by
  induction l with
  | nil => intro k _; simp [noConsecSep]
  | cons g gs ih =>
    intro k h
    cases k with
    | zero => rfl
    | succ k =>
      cases gs with
      | nil =>
        cases k <;> rfl
      | cons b t =>
        cases k with
        | zero => rfl
        | succ k =>
          simp only [List.take_succ_cons, noConsecSep, Bool.and_eq_true] at h ⊢
          refine ⟨h.1, ?_⟩
          have := ih (k + 1) h.2
          simpa [List.take_succ_cons] using this

theorem scanSeg_spec (w : List Int) :
    ∀ cnt : Nat, noConsecSep w = true →
      (scanSeg w cnt).1 = getPoints w ∧
      (scanSeg w cnt).2.length = (w.filter (fun g => g == -1)).length ∧
      List.Pairwise (· < ·) (scanSeg w cnt).2 ∧
      (∀ s ∈ (scanSeg w cnt).2, cnt ≤ s ∧ s ≤ cnt + (getPoints w).length) ∧
      (w.head? ≠ some (-1) → ∀ s ∈ (scanSeg w cnt).2, cnt + 1 ≤ s) := by
  induction w with
  | nil =>
    intro cnt _
    exact ⟨rfl, rfl, by simp [scanSeg], by simp [scanSeg],
      fun _ => by simp [scanSeg]⟩
  | cons g gs ih =>
    intro cnt h
    have htail := noConsecSep_tail h
    by_cases hg : g = -1
    · subst hg
      have hstep : scanSeg (-1 :: gs) cnt
          = ((scanSeg gs cnt).1, cnt :: (scanSeg gs cnt).2) := rfl
      obtain ⟨e1, e2, e3, e4, e5⟩ := ih cnt htail
      have hgshead : gs.head? ≠ some (-1) := by
        cases gs with
        | nil => simp
        | cons b t => simpa using noConsecSep_after_sep h
      have hge5 := e5 hgshead
      have hpts : getPoints ((-1 : Int) :: gs) = getPoints gs := by
        simp [getPoints]
      rw [hstep]
      refine ⟨by simpa [hpts] using e1, ?_, ?_, ?_, ?_⟩
      · simp only [List.length_cons, e2, List.filter_cons]
        simp
      · rw [List.pairwise_cons]
        exact ⟨fun s hs => by have := hge5 s hs; omega, e3⟩
      · intro s hs
        rw [hpts]
        rcases List.mem_cons.mp hs with rfl | hs'
        · exact ⟨le_refl _, Nat.le_add_right _ _⟩
        · exact e4 s hs'
      · intro hhead
        exact absurd rfl hhead
    · have hstep : scanSeg (g :: gs) cnt
          = (g :: (scanSeg gs (cnt + 1)).1, (scanSeg gs (cnt + 1)).2) := by
        simp [scanSeg, hg]
      obtain ⟨e1, e2, e3, e4, e5⟩ := ih (cnt + 1) htail
      have hpts : getPoints (g :: gs) = g :: getPoints gs := by
        simp [getPoints, hg]
      rw [hstep]
      refine ⟨by rw [e1, hpts], ?_, e3, ?_, ?_⟩
      · rw [e2, List.filter_cons]
        simp [beq_eq_false_iff_ne.mpr hg]
      · intro s hs
        obtain ⟨hl, hu⟩ := e4 s hs
        rw [hpts]
        refine ⟨by omega, by simp only [List.length_cons]; omega⟩
      · intro _ s hs
        exact (e4 s hs).1

theorem pairwise_lt_bounded_length (l : List Nat) :
    ∀ a m : Nat, List.Pairwise (· < ·) l →
      (∀ x ∈ l, a ≤ x ∧ x < a + m) → l.length ≤ m := by
  induction l with
  | nil => intro a m _ _; simp
  | cons x xs ih =>
    intro a m hp hb
    have hx := hb x (List.mem_cons_self ..)
    have hxs : ∀ y ∈ xs, x + 1 ≤ y := fun y hy =>
      (List.pairwise_cons.mp hp).1 y hy
    have hlen : xs.length ≤ m - 1 := by
      refine ih (x + 1) (m - 1) (List.pairwise_cons.mp hp).2 (fun y hy => ?_)
      have h1 := hxs y hy
      have h2 := (hb y (List.mem_cons_of_mem _ hy)).2
      omega
    simp only [List.length_cons]
    omega

theorem rebuildGo_spec :
    ∀ (n pos : Nat) (stale rest : List Nat) (seg : List Int),
      (∀ s ∈ stale, s < pos) →
      List.Pairwise (· < ·) rest →
      (∀ s ∈ rest, pos ≤ s ∧ s < pos + n) →
      seg.length + rest.length = n →
      (∀ x ∈ seg, x ≠ (-1 : Int)) →
      getPoints (rebuildGo pos n seg (stale ++ rest)) = seg ∧
      (rebuildGo pos n seg (stale ++ rest)).length = n ∧
      ((rebuildGo pos n seg (stale ++ rest)).filter
        (fun g => g == -1)).length = rest.length := by
  intro n
  induction n with
  | zero =>
    intro pos stale rest seg hst hpw hb hlen hseg
    have hrest : rest = [] := by
      cases rest with
      | nil => rfl
      | cons r rs =>
        have h := hb r (List.mem_cons_self ..)
        omega
    subst hrest
    have hseg0 : seg = [] := List.length_eq_zero.mp (by simpa using hlen)
    subst hseg0
    exact ⟨rfl, rfl, rfl⟩
  | succ n ih =>
    intro pos stale rest seg hst hpw hb hlen hseg
    by_cases hc : (stale ++ rest).contains pos = true
    · have hpos_rest : pos ∈ rest := by
        rcases List.mem_append.mp (List.elem_iff.mp hc) with hmem | hmem
        · exact absurd (hst pos hmem) (lt_irrefl pos)
        · exact hmem
      obtain ⟨rs, hrest⟩ : ∃ rs, rest = pos :: rs := by
        cases rest with
        | nil => cases hpos_rest
        | cons r rs =>
          rcases List.mem_cons.mp hpos_rest with hp | hp
          · exact ⟨rs, by rw [hp]⟩
          · exfalso
            have hlt := (List.pairwise_cons.mp hpw).1 pos hp
            have hge := (hb r (List.mem_cons_self ..)).1
            omega
      subst hrest
      have hstep : rebuildGo pos (n + 1) seg (stale ++ pos :: rs)
          = -1 :: rebuildGo (pos + 1) n seg (stale ++ pos :: rs) := by
        simp [rebuildGo, hc]
      have happ : stale ++ pos :: rs = (stale ++ [pos]) ++ rs := by
        simp
      obtain ⟨r1, r2, r3⟩ := ih (pos + 1) (stale ++ [pos]) rs seg
        (fun s hs => by
          rcases List.mem_append.mp hs with hmem | hmem
          · have := hst s hmem; omega
          · simp only [List.mem_singleton] at hmem; omega)
        (List.pairwise_cons.mp hpw).2
        (fun s hs => by
          have h1 := (List.pairwise_cons.mp hpw).1 s hs
          have h2 := (hb s (List.mem_cons_of_mem _ hs)).2
          omega)
        (by simp only [List.length_cons] at hlen; omega)
        hseg
      rw [hstep, happ] at *
      refine ⟨?_, ?_, ?_⟩
      · simpa [getPoints] using r1
      · simp only [List.length_cons, r2]
      · rw [List.filter_cons]
        simpa using r3
    · have hpos_notin : pos ∉ rest := fun hp =>
        hc (List.elem_iff.mpr (List.mem_append_right _ hp))
      have hrest_low : ∀ s ∈ rest, pos + 1 ≤ s := by
        intro s hs
        have h1 := (hb s hs).1
        have h2 : s ≠ pos := fun he => hpos_notin (he ▸ hs)
        omega
      have hrlen : rest.length ≤ n :=
        pairwise_lt_bounded_length rest (pos + 1) n hpw
          (fun s hs => ⟨hrest_low s hs, by have := (hb s hs).2; omega⟩)
      obtain ⟨x, xs, hsegx⟩ : ∃ x xs, seg = x :: xs := by
        cases seg with
        | nil => exfalso; simp at hlen; omega
        | cons x xs => exact ⟨x, xs, rfl⟩
      subst hsegx
      have hstep : rebuildGo pos (n + 1) (x :: xs) (stale ++ rest)
          = x :: rebuildGo (pos + 1) n xs (stale ++ rest) := by
        conv_lhs => rw [rebuildGo]
        rw [if_neg hc, List.headD_cons, List.tail_cons]
      obtain ⟨r1, r2, r3⟩ := ih (pos + 1) stale rest xs
        (fun s hs => by have := hst s hs; omega)
        hpw
        (fun s hs => ⟨hrest_low s hs, by have := (hb s hs).2; omega⟩)
        (by simp only [List.length_cons] at hlen; omega)
        (fun y hy => hseg y (List.mem_cons_of_mem _ hy))
      have hx : x ≠ -1 := hseg x (List.mem_cons_self ..)
      rw [hstep]
      refine ⟨?_, ?_, ?_⟩
      · have hgp : getPoints (x :: rebuildGo (pos + 1) n xs (stale ++ rest))
            = x :: getPoints (rebuildGo (pos + 1) n xs (stale ++ rest)) := by
          simp [getPoints, hx]
        rw [hgp, r1]
      · simp only [List.length_cons, r2]
      · rw [List.filter_cons]
        simp [beq_eq_false_iff_ne.mpr hx, r3]

theorem window_length_split (window : List Int) :
    (getPoints window).length
      + (window.filter (fun g => g == -1)).length = window.length := by
  have hsplit : window.length
      = (window.filter (fun g : Int => decide (g ≠ -1))).length
        + (window.filter (fun x : Int => !decide (x ≠ -1))).length :=
    List.length_eq_length_filter_add _
  have hfun : (fun x : Int => !decide (x ≠ -1)) = (fun g : Int => g == -1) := by
    funext x
    by_cases hx : x = -1 <;> simp [hx]
  rw [hfun] at hsplit
  simp only [getPoints]
  omega

/-- The inversion core preserves the point multiset and the separator
count on any window of a separator-clean gene list that starts and ends at
point positions. -/
theorem invCore_spec (genes : List Int) (g1 g2 : Nat)
    (hcs : noConsecSep genes = true)
    (h12 : g1 ≤ g2) (h2 : g2 < genes.length)
    (hs1 : genes.getD g1 0 ≠ -1) :
    (getPoints (invCore genes g1 g2)).Perm (getPoints genes) ∧
    ((invCore genes g1 g2).filter (fun g => g == -1)).length
      = (genes.filter (fun g => g == -1)).length := by
  set window := (genes.drop g1).take (g2 - g1 + 1) with hwindow
  have hwlen : window.length = g2 - g1 + 1 := by
    simp only [hwindow, List.length_take, List.length_drop]
    omega
  have hdecomp : genes = genes.take g1 ++ (window ++ genes.drop (g2 + 1)) := by
    conv_lhs => rw [← List.take_append_drop g1 genes]
    congr 1
    conv_lhs => rw [← List.take_append_drop (g2 - g1 + 1) (genes.drop g1)]
    congr 1
    rw [List.drop_drop]
    congr 1
    omega
  have hwcs : noConsecSep window = true :=
    noConsecSep_take _ _ (noConsecSep_drop _ _ hcs)
  have hg1elem : g1 < genes.length := by omega
  have hwhead : window.head? ≠ some (-1) := by
    have hh0 : window.head? = some (genes.getD g1 0) := by
      rw [List.head?_eq_getElem?]
      rw [hwindow, List.getElem?_take_of_lt (by omega), List.getElem?_drop]
      rw [Nat.add_zero, List.getElem?_eq_getElem hg1elem,
        List.getD_eq_getElem genes 0 hg1elem]
    rw [hh0]
    intro hcon
    exact hs1 (Option.some.inj hcon)
  obtain ⟨s1, s2, s3, s4, s5⟩ := scanSeg_spec window 0 hwcs
  have hseps_low := s5 hwhead
  have hslen : (scanSeg window 0).1.length = (getPoints window).length := by
    rw [s1]
  obtain ⟨r1, r2, r3⟩ := rebuildGo_spec
    ((scanSeg window 0).1.length + (scanSeg window 0).2.length) 0 []
    (scanSeg window 0).2 (scanSeg window 0).1.reverse
    (by intro s hs; simp at hs)
    s3
    (by
      intro s hs
      refine ⟨Nat.zero_le _, ?_⟩
      have hub := (s4 s hs).2
      have hpos : 1 ≤ (scanSeg window 0).2.length :=
        List.length_pos.mpr (List.ne_nil_of_mem hs)
      simp only [Nat.zero_add] at hub ⊢
      omega)
    (by simp)
    (by
      intro x hx
      rw [List.mem_reverse, s1] at hx
      simp only [getPoints, List.mem_filter] at hx
      exact of_decide_eq_true hx.2)
  simp only [List.nil_append] at r1 r2 r3
  have hiw : invWindow window
      = rebuildGo 0 ((scanSeg window 0).1.length + (scanSeg window 0).2.length)
        (scanSeg window 0).1.reverse (scanSeg window 0).2 := rfl
  have hn : (scanSeg window 0).1.length + (scanSeg window 0).2.length
      = g2 - g1 + 1 := by
    rw [hslen, s2, ← hwlen]
    exact window_length_split window
  have htake : (invWindow window).take (g2 - g1 + 1) = invWindow window := by
    refine List.take_of_length_le ?_
    rw [hiw, r2, hn]
  have hinv : invCore genes g1 g2
      = genes.take g1 ++ (invWindow window ++ genes.drop (g2 + 1)) := by
    unfold invCore
    rw [← hwindow, htake, List.append_assoc]
  have hptsW : getPoints (invWindow window) = (scanSeg window 0).1.reverse := by
    rw [hiw, r1]
  have hsepW : ((invWindow window).filter (fun g => g == -1)).length
      = (window.filter (fun g => g == -1)).length := by
    rw [hiw, r3, ← s2]
  have hfilter_app : ∀ u v : List Int,
      getPoints (u ++ v) = getPoints u ++ getPoints v := by
    intro u v
    simp [getPoints, List.filter_append]
  constructor
  · rw [hinv, hfilter_app, hfilter_app, hptsW]
    conv_rhs => rw [hdecomp]
    rw [hfilter_app, hfilter_app, ← s1]
    exact List.Perm.append_left _
      ((List.reverse_perm (scanSeg window 0).1).append_right _)
  · rw [hinv]
    conv_rhs => rw [hdecomp]
    simp only [List.filter_append, List.length_append]
    rw [hsepW]

/-- C9: refuted as stated — `inversion_mutation` records each separator's
offset as a count of preceding points but reinserts it at that absolute
position, so a window spanning two separators rebuilds them adjacently:
on the valid chromosome `[0,-1,1,-1,2]` with draws `idx1 = 0, idx2 = 3`
(legal `randint` ranges for 3 points) the mutant is `[2,-1,-1,1,0]`, which
fails `is_valid` (consecutive separators) even though its point multiset
and separator count are preserved. -/
theorem inversionMutation_breaks_validity :
    isValid [0, -1, 1, -1, 2] = true ∧
    inversionMutation [0, -1, 1, -1, 2] 0 3 = [2, -1, -1, 1, 0] ∧
    isValid [2, -1, -1, 1, 0] = false :=
  ⟨by decide, by decide, by decide⟩

/-- C9 amended: on every valid chromosome with at least 2 points, and for
every legal random draw, `swap_mutation` preserves the multiset of
non-sentinel values and the separator count and returns a chromosome that
still satisfies `is_valid`; `inversion_mutation` preserves the multiset of
non-sentinel values and the separator count, but (per the counterexample)
need not preserve `is_valid`. -/
theorem mutations_preserve_structure (genes : List Int) (i1 i2 j1 j2 : Nat)
    (hv : isValid genes = true) (hp2 : 2 ≤ (getPoints genes).length)
    (hi1 : i1 < (getPoints genes).length) (hi2 : i2 < (getPoints genes).length)
    (hj1 : j1 ≤ (getPoints genes).length - 2) (hj12 : j1 + 1 ≤ j2)
    (hj2 : j2 ≤ (getPoints genes).length) :
    ((getPoints (swapMutation genes i1 i2)).Perm (getPoints genes) ∧
      ((swapMutation genes i1 i2).filter (fun g => g == -1)).length
        = (genes.filter (fun g => g == -1)).length ∧
      isValid (swapMutation genes i1 i2) = true) ∧
    ((getPoints (inversionMutation genes j1 j2)).Perm (getPoints genes) ∧
      ((inversionMutation genes j1 j2).filter (fun g => g == -1)).length
        = (genes.filter (fun g => g == -1)).length) := by
  obtain ⟨hplen, hpmem, hppw⟩ := pointIndices_spec genes
  have hnlt : ¬ ((getPoints genes).length < 2) := by omega
  simp only [isValid, Bool.and_eq_true, decide_eq_true_eq] at hv
  constructor
  · have hsw : swapMutation genes i1 i2
        = swapCore genes ((pointIndices genes).getD i1 0)
          ((pointIndices genes).getD i2 0) := by
      simp [swapMutation, hnlt]
    have hm1 := hpmem _ (getD_mem_of_lt (pointIndices genes) i1 (by omega))
    have hm2 := hpmem _ (getD_mem_of_lt (pointIndices genes) i2 (by omega))
    obtain ⟨hperm, hmap⟩ := swapCore_spec genes
      ((pointIndices genes).getD i1 0) ((pointIndices genes).getD i2 0)
      hm1.1 hm2.1 hm1.2 hm2.2
    rw [hsw]
    refine ⟨hperm.filter _, (hperm.filter _).length_eq, ?_⟩
    simp only [isValid, Bool.and_eq_true, decide_eq_true_eq]
    refine ⟨((hperm.filter _).nodup_iff).mpr hv.1, ?_⟩
    rw [noConsecSep_eq_noConsecB, hmap, ← noConsecSep_eq_noConsecB]
    exact hv.2
  · have hinvm : inversionMutation genes j1 j2
        = invCore genes ((pointIndices genes).getD j1 0)
          ((pointIndices genes).getD (j2 - 1) 0) := by
      simp [inversionMutation, hnlt]
    have hm1 := hpmem _ (getD_mem_of_lt (pointIndices genes) j1 (by omega))
    have hm2 := hpmem _ (getD_mem_of_lt (pointIndices genes) (j2 - 1) (by omega))
    have h12 : (pointIndices genes).getD j1 0
        ≤ (pointIndices genes).getD (j2 - 1) 0 := by
      rcases Nat.lt_or_ge j1 (j2 - 1) with hlt | hge
      · exact le_of_lt (pairwise_lt_getD_lt (pointIndices genes) hppw j1 (j2 - 1)
          hlt (by omega))
      · have : j1 = j2 - 1 := by omega
        rw [this]
    obtain ⟨hperm, hcount⟩ := invCore_spec genes
      ((pointIndices genes).getD j1 0) ((pointIndices genes).getD (j2 - 1) 0)
      hv.2 h12 hm2.1 hm1.2
    rw [hinvm]
    exact ⟨hperm, hcount⟩

/-- C9 amended witness: on the valid chromosome `[0, -1, 1, -1, 2]`,
swapping the first two points yields a chromosome that is still valid. -/
theorem mutations_preserve_structure_witness :
    isValid (swapMutation [0, -1, 1, -1, 2] 0 1) = true :=
  ((mutations_preserve_structure [0, -1, 1, -1, 2] 0 1 0 2 (by decide)
    (by decide) (by decide) (by decide) (by decide) (by decide)
    (by decide)).1).2.2

end VRP




